import Mathlib

/-!
# MailHarvest: verified model of the email harvesting core

A shallow embedding of `src/email/MailHarvest.py` (class `ImapEmailConnector`
and the provider factory).  Python strings are modelled as `List Char`; the
UTF-8 decoding with `errors='replace'` is total, so a decoded payload is
modelled as the resulting character list.  Python regular-expression
substitutions are modelled by executable scanners that follow the
leftmost / lazy-vs-greedy semantics of the concrete patterns used in the
source.  Recursive scanners take an explicit fuel argument (instantiated
with the input length by their wrappers) so that all definitions reduce in
the kernel.
-/

set_option autoImplicit false

namespace MailHarvest

/-! ## String primitives (Python `str` / `re` behaviour) -/

/-- Characters matched by Python's `\s` (and `str.isspace`) on `str`. -/
def pySpace (c : Char) : Bool :=
  c = ' ' || c = '\t' || c = '\n' || c = '\r' ||
  c.toNat = 0x0b || c.toNat = 0x0c ||
  (0x1c ≤ c.toNat && c.toNat ≤ 0x1f) ||
  c.toNat = 0x85 || c.toNat = 0xa0 || c.toNat = 0x1680 ||
  (0x2000 ≤ c.toNat && c.toNat ≤ 0x200a) ||
  c.toNat = 0x2028 || c.toNat = 0x2029 ||
  c.toNat = 0x202f || c.toNat = 0x205f || c.toNat = 0x3000

/-- Python `str.lower()`, restricted to the ASCII case mapping. -/
def toLowerStr (l : List Char) : List Char := l.map Char.toLower

/-- Index of the first occurrence of `pat` in `l` (`str.find` for a
nonempty needle; `some 0` on an empty needle, as in Python). -/
def findPat (pat : List Char) : List Char → Option Nat
  | [] => if pat = [] then some 0 else none
  | c :: rest =>
    if pat.isPrefixOf (c :: rest) then some 0
    else (findPat pat rest).map (· + 1)

/-- Python's `pat in l` substring test. -/
def containsSub (pat l : List Char) : Bool := (findPat pat l).isSome

/-- Remainder of the list after the first `>` character, if any. -/
def afterGt : List Char → Option (List Char)
  | [] => none
  | c :: rest => if c = '>' then some rest else afterGt rest

/-! ## `_html_to_text` (lines 296-343)

`re.sub(r'<script.*?>.*?</script>', ' ', html, flags=re.DOTALL)` and the
analogous `<style>` pattern.  Both patterns are case-sensitive (the source
passes only `re.DOTALL`).  A match starting at a given position consumes
the opening pattern, the shortest stretch up to a `>`, then the shortest
stretch up to the closing pattern. -/

/-- Attempt the lazy match `openPat .*? > .*? closePat` at the head of `l`;
returns the remainder after the match. -/
def lazyTagMatch (openPat closePat l : List Char) : Option (List Char) :=
  if openPat.isPrefixOf l then
    match (l.drop openPat.length).findIdx? (fun c => c = '>') with
    | none => none
    | some j =>
      match findPat closePat ((l.drop openPat.length).drop (j + 1)) with
      | none => none
      | some k =>
        some (((l.drop openPat.length).drop (j + 1)).drop (k + closePat.length))
  else none

/-- Left-to-right scan replacing every match of
`openPat .*? > .*? closePat` with a single space. -/
def subTagBlocksAux (openPat closePat : List Char) : Nat → List Char → List Char
  | 0, l => l
  | _ + 1, [] => []
  | fuel + 1, c :: rest =>
    match lazyTagMatch openPat closePat (c :: rest) with
    | some rem => ' ' :: subTagBlocksAux openPat closePat fuel rem
    | none => c :: subTagBlocksAux openPat closePat fuel rest

def subTagBlocks (openPat closePat l : List Char) : List Char :=
  subTagBlocksAux openPat closePat l.length l

def removeScripts (l : List Char) : List Char :=
  subTagBlocks ("<script".toList) ("</script>".toList) l

def removeStyles (l : List Char) : List Char :=
  subTagBlocks ("<style".toList) ("</style>".toList) l

/-! `re.sub(r'<(div|p|h\d|br|li|tr)[^>]*?>', '\n', html)`: after `<`, the
alternatives are tried in the order they appear in the pattern; each then
lazily consumes non-`>` characters up to the first `>`. -/

/-- The `h\d` alternative: `h` followed by an ASCII digit. -/
def hDigitAlt : List Char → Option (List Char)
  | 'h' :: d :: r => if d.isDigit then afterGt r else none
  | _ => none

/-- Try the block-element alternatives after a `<`. -/
def blockAlt (rest : List Char) : Option (List Char) :=
  (if ("div".toList).isPrefixOf rest then afterGt (rest.drop 3) else none) <|>
  (if ("p".toList).isPrefixOf rest then afterGt (rest.drop 1) else none) <|>
  hDigitAlt rest <|>
  (if ("br".toList).isPrefixOf rest then afterGt (rest.drop 2) else none) <|>
  (if ("li".toList).isPrefixOf rest then afterGt (rest.drop 2) else none) <|>
  (if ("tr".toList).isPrefixOf rest then afterGt (rest.drop 2) else none)

def subBlockTagsAux : Nat → List Char → List Char
  | 0, l => l
  | _ + 1, [] => []
  | fuel + 1, c :: rest =>
    if c = '<' then
      match blockAlt rest with
      | some rem => '\n' :: subBlockTagsAux fuel rem
      | none => c :: subBlockTagsAux fuel rest
    else c :: subBlockTagsAux fuel rest

def subBlockTags (l : List Char) : List Char := subBlockTagsAux l.length l

/-! Named entity substitution: `html_content.replace(entity, replacement)`
applied sequentially in the insertion order of the `entities` dict. -/

/-- Python `str.replace`: replace every non-overlapping occurrence,
scanning left to right. -/
def replaceAllAux (p : Char) (ps rep : List Char) : Nat → List Char → List Char
  | 0, l => l
  | _ + 1, [] => []
  | fuel + 1, c :: rest =>
    if (p :: ps).isPrefixOf (c :: rest) then
      rep ++ replaceAllAux p ps rep fuel (rest.drop ps.length)
    else c :: replaceAllAux p ps rep fuel rest

def replaceAll (pat rep l : List Char) : List Char :=
  match pat with
  | [] => l
  | p :: ps => replaceAllAux p ps rep l.length l

/-- The `entities` table, in source order. -/
def entityPairs : List (List Char × List Char) :=
  [("&nbsp;".toList, " ".toList),
   ("&amp;".toList, "&".toList),
   ("&lt;".toList, "<".toList),
   ("&gt;".toList, ">".toList),
   ("&quot;".toList, [Char.ofNat 34]),
   ("&#39;".toList, [Char.ofNat 39]),
   ("&apos;".toList, [Char.ofNat 39]),
   ("&cent;".toList, "¢".toList),
   ("&pound;".toList, "£".toList),
   ("&yen;".toList, "¥".toList),
   ("&euro;".toList, "€".toList),
   ("&copy;".toList, "©".toList),
   ("&reg;".toList, "®".toList)]

def applyEntities (l : List Char) : List Char :=
  entityPairs.foldl (fun s pr => replaceAll pr.1 pr.2 s) l

/-! `re.sub(r'&#(\d+);', lambda m: chr(int(m.group(1))), html)`: greedy
maximal digit run, which must be followed by `;`.  A reference whose value
is not a valid scalar is modelled as `Char.ofNat`'s default (the Python
`chr` would raise for values above `0x10FFFF`); no claim depends on it. -/

/-- Maximal ASCII-digit prefix and the remainder. -/
def takeDigits : List Char → List Char × List Char
  | [] => ([], [])
  | c :: rest =>
    if c.isDigit then
      let (ds, r) := takeDigits rest
      (c :: ds, r)
    else ([], c :: rest)

def digitsToNat (ds : List Char) : Nat :=
  ds.foldl (fun n c => 10 * n + (c.toNat - 48)) 0

def subNumericAux : Nat → List Char → List Char
  | 0, l => l
  | _ + 1, [] => []
  | fuel + 1, c :: rest =>
    if c = '&' then
      match rest with
      | '#' :: rest2 =>
        (match takeDigits rest2 with
         | ([], _) => c :: subNumericAux fuel rest
         | (ds, ';' :: r2) => Char.ofNat (digitsToNat ds) :: subNumericAux fuel r2
         | (_, _) => c :: subNumericAux fuel rest)
      | _ => c :: subNumericAux fuel rest
    else c :: subNumericAux fuel rest

def subNumericEntities (l : List Char) : List Char := subNumericAux l.length l

/-! `re.sub(r'<[^>]*?>', '', html)`: from a `<`, lazily consume non-`>`
characters up to the first `>`; if no `>` follows, the `<` is kept. -/

def stripTagsAux : Nat → List Char → List Char
  | 0, l => l
  | _ + 1, [] => []
  | fuel + 1, c :: rest =>
    if c = '<' then
      match afterGt rest with
      | some rem => stripTagsAux fuel rem
      | none => c :: stripTagsAux fuel rest
    else c :: stripTagsAux fuel rest

def stripTags (l : List Char) : List Char := stripTagsAux l.length l

/-! `re.sub(r'\n+', '\n', ...)` and `re.sub(r'\s+', ' ', ...)`: collapse
every maximal run of characters satisfying `p` to the single character
`rep`. -/

def collapseRunsAux (p : Char → Bool) (rep : Char) : Nat → List Char → List Char
  | 0, l => l
  | _ + 1, [] => []
  | fuel + 1, c :: rest =>
    if p c then rep :: collapseRunsAux p rep fuel (rest.dropWhile p)
    else c :: collapseRunsAux p rep fuel rest

def collapseRuns (p : Char → Bool) (rep : Char) (l : List Char) : List Char :=
  collapseRunsAux p rep l.length l

/-- Python `str.strip()`. -/
def stripWs (l : List Char) : List Char :=
  ((l.dropWhile pySpace).reverse.dropWhile pySpace).reverse

/-- The pipeline of `_html_to_text` after the script/style removal: block
tags to newlines, entity tables, tag stripping, newline collapse,
whitespace collapse, strip. -/
def htmlToTextRest (l : List Char) : List Char :=
  stripWs (collapseRuns pySpace ' ' (collapseRuns (fun c => c = '\n') '\n'
    (stripTags (subNumericEntities (applyEntities (subBlockTags l))))))

/-- `ImapEmailConnector._html_to_text` (lines 296-343). -/
def htmlToText (l : List Char) : List Char :=
  htmlToTextRest (removeStyles (removeScripts l))

/-! ## Message model and `_get_email_content` (lines 226-294)

A MIME body part carries its declared content type, the stringified
`Content-Disposition` header (`"None"` when absent) and the payload as
returned by `get_payload(decode=True)` after the total UTF-8
`errors='replace'` decoding: `none` when the payload is absent or the
decode attempt raises, `some []` for an empty byte string. -/

structure Part where
  contentType : List Char
  contentDisposition : List Char
  payload : Option (List Char)
deriving DecidableEq

/-- A parsed message: non-multipart, or multipart with the flattened list
of parts yielded by `msg.walk()`. -/
inductive EmailMessage where
  | single (part : Part)
  | multi (parts : List Part)
deriving DecidableEq

/-- `msg.walk()`; on a non-multipart message it yields only the message
itself. -/
def walkParts : EmailMessage → List Part
  | .single p => [p]
  | .multi ps => ps

/-- One iteration of the multipart loop: skip attachments, then append a
non-empty payload to the `text/plain` or `text/html` buffer. -/
def accumStep (acc : List Char × List Char) (p : Part) : List Char × List Char :=
  if containsSub ("attachment".toList) p.contentDisposition then acc
  else if p.contentType = "text/plain".toList then
    match p.payload with
    | some pl => if pl = [] then acc else (acc.1 ++ pl, acc.2)
    | none => acc
  else if p.contentType = "text/html".toList then
    match p.payload with
    | some pl => if pl = [] then acc else (acc.1, acc.2 ++ pl)
    | none => acc
  else acc

/-- The `(plain_content, html_content)` buffers after the extraction loop. -/
def accumBuffers : EmailMessage → List Char × List Char
  | .multi ps => ps.foldl accumStep ([], [])
  | .single p =>
    match p.payload with
    | none => ([], [])
    | some pl =>
      if pl = [] then ([], [])
      else if p.contentType = "text/plain".toList then (pl, [])
      else if p.contentType = "text/html".toList then ([], pl)
      else ([], [])

/-- The final cleanup `re.sub(r'\s+', ' ', content).strip()`. -/
def normalizeWs (l : List Char) : List Char :=
  stripWs (collapseRuns pySpace ' ' l)

set_option linter.unusedVariables false in
/-- `ImapEmailConnector._get_email_content` (lines 226-294).  The
`plainTextOnly` parameter is accepted but, as in the source body, never
read. -/
def getEmailContent (msg : EmailMessage) (plainTextOnly : Bool) : List Char :=
  normalizeWs
    (if (accumBuffers msg).1 = [] then
      if (accumBuffers msg).2 = [] then [] else htmlToText (accumBuffers msg).2
    else (accumBuffers msg).1)

/-! ## Deep fallback scan (`fetch_emails`, lines 148-172) -/

/-- The decodable non-empty payloads collected by the fallback walk. -/
def payloadStrings (msg : EmailMessage) : List (List Char) :=
  (walkParts msg).filterMap (fun p =>
    match p.payload with
    | some pl => if pl = [] then none else some pl
    | none => none)

/-- Python `' '.join`. -/
def spaceJoin (parts : List (List Char)) : List Char :=
  List.intercalate [' '] parts

/-- The fallback extraction: join every decodable payload; if the result
contains both `<` and `>`, convert it as HTML, otherwise use it as-is. -/
def fallbackContent (msg : EmailMessage) : List Char :=
  match payloadStrings msg with
  | [] => []
  | ps =>
    if '<' ∈ spaceJoin ps ∧ '>' ∈ spaceJoin ps then htmlToText (spaceJoin ps)
    else spaceJoin ps

/-- Content as emitted by `fetch_emails`: the primary extractor, then the
fallback when the primary result is empty. -/
def extractContent (msg : EmailMessage) (plainTextOnly : Bool) : List Char :=
  if getEmailContent msg plainTextOnly = [] then fallbackContent msg
  else getEmailContent msg plainTextOnly

/-! ## Mail session (`fetch_emails`, lines 76-185, and `disconnect`)

The IMAP server is abstracted by the outcomes of its protocol commands:
whether `SELECT INBOX` and `SEARCH ALL` report `OK`, the listed message
identifiers, and per-identifier fetch results.  Header decoding
(`_decode_header`) and date normalization (`_parse_date`) are total string
transformations not touched by any claim; a fetched message carries their
results directly. -/

structure FetchedMsg where
  subject : List Char
  fromAddr : List Char
  date : List Char
  body : EmailMessage
deriving DecidableEq

structure ImapServer where
  selectOk : Bool
  searchOk : Bool
  messageIds : List (List Char)
  fetchMsg : List Char → Option FetchedMsg

structure EmailRecord where
  id : List Char
  subject : List Char
  fromAddr : List Char
  date : List Char
  content : List Char
deriving DecidableEq

/-- Lines 107-109: `if limit and limit > 0: id_list = id_list[-limit:]`.
An integer is truthy when non-zero; `l[-k:]` for `k > 0` is the suffix of
length `min k (length l)`. -/
def applyLimit (limit : Option Int) (ids : List (List Char)) : List (List Char) :=
  match limit with
  | none => ids
  | some k => if k ≠ 0 ∧ 0 < k then ids.drop (ids.length - k.toNat) else ids

/-- Lines 134-139: case-insensitive substring test of any exclusion against
the decoded sender. -/
def shouldExclude (excludeSenders : List (List Char)) (fromAddr : List Char) : Bool :=
  excludeSenders.any (fun ex => containsSub (toLowerStr ex) (toLowerStr fromAddr))

/-- Per-identifier step of the fetch loop: skip on fetch error, skip
excluded senders, otherwise build the record. -/
def fetchOne (srv : ImapServer) (plainTextOnly : Bool)
    (excludeSenders : List (List Char)) (mid : List Char) : Option EmailRecord :=
  match srv.fetchMsg mid with
  | none => none
  | some m =>
    if shouldExclude excludeSenders m.fromAddr then none
    else some { id := mid, subject := m.subject, fromAddr := m.fromAddr,
                date := m.date, content := extractContent m.body plainTextOnly }

/-- `ImapEmailConnector.fetch_emails`: on a rejected `SELECT` or `SEARCH`
the function logs and returns the (empty) accumulator; otherwise it
processes the limited identifier list in order. -/
def fetchEmails (srv : ImapServer) (limit : Option Int) (plainTextOnly : Bool)
    (excludeSenders : List (List Char)) : List EmailRecord :=
  if srv.selectOk = false then []
  else if srv.searchOk = false then []
  else (applyLimit limit srv.messageIds).filterMap (fetchOne srv plainTextOnly excludeSenders)

/-! ## `disconnect` (lines 187-194)

The underlying handle is abstracted by whether its `close()` and
`logout()` calls raise; `disconnect` guards on the handle's presence and
swallows any failure of the guarded calls. -/

structure ImapHandle where
  closeFails : Bool
  logoutFails : Bool
deriving DecidableEq

def imapClose (h : ImapHandle) : Except (List Char) Unit :=
  if h.closeFails then .error ("close failed".toList) else .ok ()

def imapLogout (h : ImapHandle) : Except (List Char) Unit :=
  if h.logoutFails then .error ("logout failed".toList) else .ok ()

/-- `ImapEmailConnector.disconnect`: no-op without a handle; `close` then
`logout` inside `try/except: pass` otherwise. -/
def disconnect (imap : Option ImapHandle) : Except (List Char) Unit :=
  match imap with
  | none => .ok ()
  | some h =>
    match imapClose h with
    | .error _ => .ok ()
    | .ok _ =>
      match imapLogout h with
      | .error _ => .ok ()
      | .ok _ => .ok ()

/-! ## `EmailConnectorFactory.create_connector` (lines 456-472) -/

structure ConnectorCfg where
  username : List Char
  password : List Char
  imapServer : List Char
  imapPort : Nat
deriving DecidableEq

/-- The factory lowercases the provider name, dispatches on the five known
providers and raises `ValueError` otherwise (modelled as `Except.error`
with the formatted message). -/
def createConnector (provider username password : List Char) :
    Except (List Char) ConnectorCfg :=
  if toLowerStr provider = "gmail".toList then
    .ok ⟨username, password, "imap.gmail.com".toList, 993⟩
  else if toLowerStr provider = "outlook".toList then
    .ok ⟨username, password, "outlook.office365.com".toList, 993⟩
  else if toLowerStr provider = "yahoo".toList then
    .ok ⟨username, password, "imap.mail.yahoo.com".toList, 993⟩
  else if toLowerStr provider = "aol".toList then
    .ok ⟨username, password, "imap.aol.com".toList, 993⟩
  else if toLowerStr provider = "zoho".toList then
    .ok ⟨username, password, "imap.zoho.com".toList, 993⟩
  else
    .error ("Unsupported email provider: ".toList ++ toLowerStr provider)

/-! ## Whitespace-shape predicates

`NoWsRun l` says no two adjacent characters of `l` are both whitespace;
`WsNormalized l` additionally says `l` is trimmed.  Together they state the
spec's invariant on `content`. -/

def headNotWs : List Char → Bool
  | [] => true
  | c :: _ => !pySpace c

def NoWsRun (l : List Char) : Prop :=
  l.Chain' (fun a b => pySpace a = false ∨ pySpace b = false)

instance (l : List Char) : Decidable (NoWsRun l) :=
  inferInstanceAs (Decidable (l.Chain' fun a b =>
    pySpace a = false ∨ pySpace b = false))

def WsNormalized (l : List Char) : Prop :=
  NoWsRun l ∧ headNotWs l = true ∧ headNotWs l.reverse = true

instance (l : List Char) : Decidable (WsNormalized l) :=
  inferInstanceAs (Decidable
    (NoWsRun l ∧ headNotWs l = true ∧ headNotWs l.reverse = true))

/-! ## Decomposition of the extraction buffers -/

/-- The payload a part contributes to the plain-text buffer, if any. -/
def plainPart? (p : Part) : Option (List Char) :=
  if containsSub ("attachment".toList) p.contentDisposition then none
  else if p.contentType = "text/plain".toList then
    match p.payload with
    | some pl => if pl = [] then none else some pl
    | none => none
  else none

def concatAll : List (List Char) → List Char
  | [] => []
  | x :: xs => x ++ concatAll xs

/-! ## Concrete instances used in the claim analyses -/

/-- A multipart message whose only body part is HTML. -/
def msgHtmlOnly : EmailMessage :=
  .multi [⟨"text/html".toList, "None".toList, some ("<p>Hello</p>".toList)⟩]

/-- A message with two non-text parts, reached only by the deep fallback. -/
def msgC2 : FetchedMsg :=
  { subject := "s".toList, fromAddr := "a@b".toList, date := []
    body := .multi
      [⟨"application/pdf".toList, "None".toList, some ("a\n".toList)⟩,
       ⟨"application/pdf".toList, "None".toList, some (" b".toList)⟩] }

def srvC2 : ImapServer :=
  { selectOk := true, searchOk := true, messageIds := [['1']],
    fetchMsg := fun mid => if mid = ['1'] then some msgC2 else none }

def recC2 : EmailRecord :=
  { id := ['1'], subject := "s".toList, fromAddr := "a@b".toList, date := [],
    content := "a\n  b".toList }

def msgC3 : FetchedMsg :=
  { subject := "s".toList, fromAddr := "x@y".toList, date := [],
    body := .single ⟨"text/plain".toList, "None".toList, some ("hi".toList)⟩ }

/-- A server that rejects `SELECT INBOX` although messages exist. -/
def srvC3 : ImapServer :=
  { selectOk := false, searchOk := true, messageIds := [['1'], ['2'], ['3']],
    fetchMsg := fun _ => some msgC3 }

def msgNews : FetchedMsg :=
  { subject := "n".toList, fromAddr := "NoReply@NEWSLETTER.com".toList, date := [],
    body := .single ⟨"text/plain".toList, "None".toList, some ("x".toList)⟩ }

def msgAlice : FetchedMsg :=
  { subject := "a".toList, fromAddr := "alice@example.org".toList, date := [],
    body := .single ⟨"text/plain".toList, "None".toList, some ("hello".toList)⟩ }

def srvC4 : ImapServer :=
  { selectOk := true, searchOk := true, messageIds := [['1'], ['2']],
    fetchMsg := fun mid =>
      if mid = ['1'] then some msgNews
      else if mid = ['2'] then some msgAlice
      else none }

/-- The record srvC4 emits for message 2 (the non-excluded sender). -/
def recAlice : EmailRecord :=
  { id := ['2'], subject := "a".toList, fromAddr := "alice@example.org".toList,
    date := [], content := "hello".toList }

/-- A multipart message with both a plain-text and an HTML body part. -/
def msgC5 : EmailMessage :=
  .multi [⟨"text/plain".toList, "None".toList, some ("Hi  there".toList)⟩,
          ⟨"text/html".toList, "None".toList, some ("<p>Bye</p>".toList)⟩]

def msgC6 : FetchedMsg :=
  { subject := "s".toList, fromAddr := "z@w".toList, date := [],
    body := .single ⟨"text/plain".toList, "None".toList, some ("ok".toList)⟩ }

def srvC6 : ImapServer :=
  { selectOk := true, searchOk := true, messageIds := [['1'], ['2'], ['3']],
    fetchMsg := fun _ => some msgC6 }

/-! ## Helper lemmas about `dropWhile`, `collapseRuns` and `stripWs` -/

theorem dropWhile_head_false (p : Char → Bool) :
    ∀ (l : List Char) (c : Char) (rest : List Char),
      l.dropWhile p = c :: rest → p c = false := by
  intro l
  induction l with
  | nil => intro c rest h; simp [List.dropWhile] at h
  | cons x xs ih =>
    intro c rest h
    rw [List.dropWhile_cons] at h
    by_cases hx : p x
    · rw [if_pos hx] at h; exact ih c rest h
    · rw [if_neg hx] at h
      cases h
      simpa using hx

theorem collapseRunsAux_congr (p : Char → Bool) (rep : Char) :
    ∀ (f₁ f₂ : Nat) (l : List Char), l.length ≤ f₁ → l.length ≤ f₂ →
      collapseRunsAux p rep f₁ l = collapseRunsAux p rep f₂ l := by
  intro f₁
  induction f₁ with
  | zero =>
    intro f₂ l h1 _
    have hl : l = [] := List.length_eq_zero.mp (Nat.le_zero.mp h1)
    subst hl; cases f₂ <;> rfl
  | succ f ih =>
    intro f₂ l h1 h2
    cases l with
    | nil => cases f₂ <;> rfl
    | cons c rest =>
      cases f₂ with
      | zero => simp at h2
      | succ g =>
        simp only [collapseRunsAux]
        have hr : rest.length ≤ f := by simpa using h1
        have hr2 : rest.length ≤ g := by simpa using h2
        by_cases hc : p c
        · rw [if_pos hc, if_pos hc]
          exact congrArg (rep :: ·)
            (ih g (rest.dropWhile p)
              (le_trans (List.dropWhile_suffix p).length_le hr)
              (le_trans (List.dropWhile_suffix p).length_le hr2))
        · rw [if_neg hc, if_neg hc]
          exact congrArg (c :: ·) (ih g rest hr hr2)

theorem collapseRuns_cons (p : Char → Bool) (rep c : Char) (rest : List Char) :
    collapseRuns p rep (c :: rest) =
      if p c then rep :: collapseRuns p rep (rest.dropWhile p)
      else c :: collapseRuns p rep rest := by
  unfold collapseRuns
  simp only [List.length_cons, collapseRunsAux]
  by_cases hc : p c
  · rw [if_pos hc, if_pos hc]
    exact congrArg (rep :: ·)
      (collapseRunsAux_congr p rep rest.length (rest.dropWhile p).length
        (rest.dropWhile p) (List.dropWhile_suffix p).length_le le_rfl)
  · rw [if_neg hc, if_neg hc]

theorem noWsRun_collapse_bounded :
    ∀ (n : Nat) (l : List Char), l.length ≤ n →
      NoWsRun (collapseRuns pySpace ' ' l) := by
  intro n
  induction n with
  | zero =>
    intro l h
    have hl : l = [] := List.length_eq_zero.mp (Nat.le_zero.mp h)
    subst hl; exact List.chain'_nil
  | succ n ih =>
    intro l h
    cases l with
    | nil => exact List.chain'_nil
    | cons c rest =>
      have hr : rest.length ≤ n := by simpa using h
      rw [collapseRuns_cons]
      by_cases hc : pySpace c
      · rw [if_pos hc]
        cases hdw : rest.dropWhile pySpace with
        | nil => exact List.chain'_singleton _
        | cons x xs =>
          have hx : pySpace x = false := dropWhile_head_false pySpace rest x xs hdw
          have hlen : (x :: xs).length ≤ n := by
            rw [← hdw]
            exact le_trans (List.dropWhile_suffix pySpace).length_le hr
          rw [collapseRuns_cons, if_neg (by simp [hx])]
          refine List.chain'_cons.mpr ⟨Or.inr hx, ?_⟩
          have := ih (x :: xs) hlen
          rwa [collapseRuns_cons, if_neg (by simp [hx])] at this
      · rw [if_neg hc]
        refine List.chain'_cons'.mpr ⟨fun b _ => Or.inl (by simpa using hc), ih rest hr⟩

theorem noWsRun_collapse (l : List Char) : NoWsRun (collapseRuns pySpace ' ' l) :=
  noWsRun_collapse_bounded l.length l le_rfl

theorem mem_collapseRuns_bounded (p : Char → Bool) (rep : Char) :
    ∀ (n : Nat) (l : List Char), l.length ≤ n →
      ∀ c ∈ collapseRuns p rep l, c ∈ l ∨ c = rep := by
  intro n
  induction n with
  | zero =>
    intro l h c hc
    have hl : l = [] := List.length_eq_zero.mp (Nat.le_zero.mp h)
    subst hl; simp [collapseRuns, collapseRunsAux] at hc
  | succ n ih =>
    intro l h c hc
    cases l with
    | nil => simp [collapseRuns, collapseRunsAux] at hc
    | cons x rest =>
      have hr : rest.length ≤ n := by simpa using h
      rw [collapseRuns_cons] at hc
      by_cases hx : p x
      · rw [if_pos hx] at hc
        rcases List.mem_cons.mp hc with hc | hc
        · exact Or.inr hc
        · have hlen : (rest.dropWhile p).length ≤ n :=
            le_trans (List.dropWhile_suffix p).length_le hr
          rcases ih (rest.dropWhile p) hlen c hc with hm | hm
          · exact Or.inl (List.mem_cons_of_mem x
              ((List.dropWhile_suffix p).sublist.mem hm))
          · exact Or.inr hm
      · rw [if_neg hx] at hc
        rcases List.mem_cons.mp hc with hc | hc
        · exact Or.inl (by simp [hc])
        · rcases ih rest hr c hc with hm | hm
          · exact Or.inl (List.mem_cons_of_mem x hm)
          · exact Or.inr hm

theorem mem_collapseRuns (p : Char → Bool) (rep : Char) (l : List Char) :
    ∀ c ∈ collapseRuns p rep l, c ∈ l ∨ c = rep :=
  mem_collapseRuns_bounded p rep l.length l le_rfl

theorem collapseRuns_p_eq_rep_bounded (p : Char → Bool) (rep : Char) :
    ∀ (n : Nat) (l : List Char), l.length ≤ n →
      ∀ c ∈ collapseRuns p rep l, p c = true → c = rep := by
  intro n
  induction n with
  | zero =>
    intro l h c hc
    have hl : l = [] := List.length_eq_zero.mp (Nat.le_zero.mp h)
    subst hl; simp [collapseRuns, collapseRunsAux] at hc
  | succ n ih =>
    intro l h c hc hpc
    cases l with
    | nil => simp [collapseRuns, collapseRunsAux] at hc
    | cons x rest =>
      have hr : rest.length ≤ n := by simpa using h
      rw [collapseRuns_cons] at hc
      by_cases hx : p x
      · rw [if_pos hx] at hc
        rcases List.mem_cons.mp hc with hc | hc
        · exact hc
        · exact ih (rest.dropWhile p)
            (le_trans (List.dropWhile_suffix p).length_le hr) c hc hpc
      · rw [if_neg hx] at hc
        rcases List.mem_cons.mp hc with hc | hc
        · subst hc; rw [hpc] at hx; exact absurd rfl hx
        · exact ih rest hr c hc hpc

theorem collapseRuns_p_eq_rep (p : Char → Bool) (rep : Char) (l : List Char) :
    ∀ c ∈ collapseRuns p rep l, p c = true → c = rep :=
  collapseRuns_p_eq_rep_bounded p rep l.length l le_rfl

theorem collapseRuns_id_of_no_p (p : Char → Bool) (rep : Char) :
    ∀ l : List Char, (∀ c ∈ l, p c = false) → collapseRuns p rep l = l := by
  intro l
  induction l with
  | nil => intro _; rfl
  | cons c rest ih =>
    intro h
    rw [collapseRuns_cons, if_neg (by simp [h c (List.mem_cons_self c rest)])]
    exact congrArg (c :: ·) (ih fun d hd => h d (List.mem_cons_of_mem c hd))

theorem collapseRuns_id_isolated :
    ∀ l : List Char, NoWsRun l → (∀ c ∈ l, pySpace c = true → c = ' ') →
      collapseRuns pySpace ' ' l = l := by
  intro l
  induction l with
  | nil => intro _ _; rfl
  | cons c rest ih =>
    intro hch hiso
    have htail : NoWsRun rest := hch.tail
    have hisot : ∀ d ∈ rest, pySpace d = true → d = ' ' :=
      fun d hd => hiso d (List.mem_cons_of_mem c hd)
    rw [collapseRuns_cons]
    by_cases hc : pySpace c
    · rw [if_pos hc]
      have hce : c = ' ' := hiso c (List.mem_cons_self c rest) hc
      have hdw : rest.dropWhile pySpace = rest := by
        cases rest with
        | nil => rfl
        | cons d t =>
          have hd : pySpace d = false := by
            rcases List.chain'_cons.mp hch with ⟨hrel, _⟩
            rcases hrel with hd | hd
            · rw [hd] at hc; exact absurd hc (by simp)
            · exact hd
          rw [List.dropWhile_cons, if_neg (by simp [hd])]
      rw [hdw, hce, ih htail hisot]
    · rw [if_neg hc]
      exact congrArg (c :: ·) (ih htail hisot)

theorem mem_stripWs (c : Char) (l : List Char) (h : c ∈ stripWs l) : c ∈ l := by
  unfold stripWs at h
  rw [List.mem_reverse] at h
  have h1 := (List.dropWhile_suffix pySpace).sublist.mem h
  rw [List.mem_reverse] at h1
  exact (List.dropWhile_suffix pySpace).sublist.mem h1

theorem noWsRun_stripWs (l : List Char) (h : NoWsRun l) : NoWsRun (stripWs l) := by
  unfold stripWs
  have h1 : NoWsRun (l.dropWhile pySpace) := h.suffix (List.dropWhile_suffix pySpace)
  have h2 : NoWsRun (l.dropWhile pySpace).reverse := by
    rw [NoWsRun, List.chain'_reverse]
    exact h1.imp fun a b hab => hab.symm
  have h3 : NoWsRun ((l.dropWhile pySpace).reverse.dropWhile pySpace) :=
    h2.suffix (List.dropWhile_suffix pySpace)
  rw [NoWsRun, List.chain'_reverse]
  exact h3.imp fun a b hab => hab.symm

theorem headNotWs_dropWhile (l : List Char) :
    headNotWs (l.dropWhile pySpace) = true := by
  cases hdw : l.dropWhile pySpace with
  | nil => rfl
  | cons c rest =>
    simp [headNotWs, dropWhile_head_false pySpace l c rest hdw]

theorem stripWs_trimmed (l : List Char) :
    headNotWs (stripWs l) = true ∧ headNotWs (stripWs l).reverse = true := by
  constructor
  · unfold stripWs
    cases hX : (l.dropWhile pySpace).reverse.dropWhile pySpace with
    | nil => rfl
    | cons c rest =>
      have hne : (c :: rest : List Char) ≠ [] := by simp
      have hsuff : (c :: rest : List Char) <:+ (l.dropWhile pySpace).reverse := by
        rw [← hX]; exact List.dropWhile_suffix pySpace
      rcases hsuff with ⟨t, ht⟩
      have hlast : (c :: rest).getLast? = (l.dropWhile pySpace).reverse.getLast? := by
        rw [← ht]; exact (List.getLast?_append_of_ne_nil t hne).symm
      rw [List.getLast?_reverse] at hlast
      cases hd : l.dropWhile pySpace with
      | nil =>
        rw [hd] at ht
        simp at ht
      | cons d t2 =>
        have hdns : pySpace d = false := dropWhile_head_false pySpace l d t2 hd
        rw [hd] at hlast
        simp only [List.head?_cons] at hlast
        have : (c :: rest).reverse.head? = some d := by
          rw [List.head?_reverse]; exact hlast
        cases hrev : (c :: rest).reverse with
        | nil => simp [hrev] at this
        | cons e t3 =>
          rw [hrev] at this
          simp only [List.head?_cons, Option.some.injEq] at this
          subst this
          simp [headNotWs, hdns]
  · unfold stripWs
    rw [List.reverse_reverse]
    exact headNotWs_dropWhile _

theorem wsNormalized_normalizeWs (l : List Char) : WsNormalized (normalizeWs l) := by
  refine ⟨?_, stripWs_trimmed _⟩
  exact noWsRun_stripWs _ (noWsRun_collapse l)

/-! ## The scanners fix trigger-free input -/

theorem isPrefixOf_cons_false (q c : Char) (ps rest : List Char) (hc : c ≠ q) :
    (q :: ps).isPrefixOf (c :: rest) = false := by
  have hqc : (q == c) = false := beq_eq_false_iff_ne.mpr (Ne.symm hc)
  simp [List.isPrefixOf, hqc]

theorem lazyTagMatch_cons_ne (nm cp rest : List Char) (c : Char) (hc : c ≠ '<') :
    lazyTagMatch ('<' :: nm) cp (c :: rest) = none := by
  simp [lazyTagMatch, isPrefixOf_cons_false '<' c nm rest hc]

theorem subTagBlocksAux_id (nm cp : List Char) :
    ∀ (fuel : Nat) (l : List Char), '<' ∉ l →
      subTagBlocksAux ('<' :: nm) cp fuel l = l := by
  intro fuel
  induction fuel with
  | zero => intro l _; rfl
  | succ f ih =>
    intro l hl
    cases l with
    | nil => rfl
    | cons c rest =>
      have hc : c ≠ '<' := fun h => hl (h ▸ List.mem_cons_self c rest)
      simp only [subTagBlocksAux, lazyTagMatch_cons_ne nm cp rest c hc]
      exact congrArg (c :: ·) (ih rest fun h => hl (List.mem_cons_of_mem c h))

theorem subTagBlocks_id (nm cp l : List Char) (hl : '<' ∉ l) :
    subTagBlocks ('<' :: nm) cp l = l :=
  subTagBlocksAux_id nm cp l.length l hl

theorem subBlockTagsAux_id :
    ∀ (fuel : Nat) (l : List Char), '<' ∉ l → subBlockTagsAux fuel l = l := by
  intro fuel
  induction fuel with
  | zero => intro l _; rfl
  | succ f ih =>
    intro l hl
    cases l with
    | nil => rfl
    | cons c rest =>
      have hc : c ≠ '<' := fun h => hl (h ▸ List.mem_cons_self c rest)
      simp only [subBlockTagsAux, if_neg hc]
      exact congrArg (c :: ·) (ih rest fun h => hl (List.mem_cons_of_mem c h))

theorem subBlockTags_id (l : List Char) (hl : '<' ∉ l) : subBlockTags l = l :=
  subBlockTagsAux_id l.length l hl

theorem replaceAllAux_id (q : Char) (ps rep : List Char) :
    ∀ (fuel : Nat) (l : List Char), q ∉ l →
      replaceAllAux q ps rep fuel l = l := by
  intro fuel
  induction fuel with
  | zero => intro l _; rfl
  | succ f ih =>
    intro l hl
    cases l with
    | nil => rfl
    | cons c rest =>
      have hc : c ≠ q := fun h => hl (h ▸ List.mem_cons_self c rest)
      have hpre : (q :: ps).isPrefixOf (c :: rest) = false :=
        isPrefixOf_cons_false q c ps rest hc
      simp only [replaceAllAux, hpre, Bool.false_eq_true, if_false]
      exact congrArg (c :: ·) (ih rest fun h => hl (List.mem_cons_of_mem c h))

theorem replaceAll_id (pat rep l : List Char) (q : Char)
    (hp : pat.head? = some q) (h : q ∉ l) : replaceAll pat rep l = l := by
  cases pat with
  | nil => simp at hp
  | cons p ps =>
    simp only [List.head?_cons, Option.some.injEq] at hp
    subst hp
    exact replaceAllAux_id p ps rep l.length l h

theorem applyEntities_id (l : List Char) (h : '&' ∉ l) : applyEntities l = l := by
  have key : ∀ (prs : List (List Char × List Char)),
      (∀ pr ∈ prs, pr.1.head? = some '&') →
      prs.foldl (fun s pr => replaceAll pr.1 pr.2 s) l = l := by
    intro prs
    induction prs with
    | nil => intro _; rfl
    | cons pr prs' ih =>
      intro hp
      simp only [List.foldl_cons]
      rw [replaceAll_id pr.1 pr.2 l '&' (hp pr (List.mem_cons_self pr prs')) h]
      exact ih fun x hx => hp x (List.mem_cons_of_mem pr hx)
  exact key entityPairs (by decide)

theorem subNumericAux_id :
    ∀ (fuel : Nat) (l : List Char), '&' ∉ l → subNumericAux fuel l = l := by
  intro fuel
  induction fuel with
  | zero => intro l _; rfl
  | succ f ih =>
    intro l hl
    cases l with
    | nil => rfl
    | cons c rest =>
      have hc : c ≠ '&' := fun h => hl (h ▸ List.mem_cons_self c rest)
      simp only [subNumericAux, if_neg hc]
      exact congrArg (c :: ·) (ih rest fun h => hl (List.mem_cons_of_mem c h))

theorem subNumericEntities_id (l : List Char) (hl : '&' ∉ l) :
    subNumericEntities l = l :=
  subNumericAux_id l.length l hl

theorem stripTagsAux_id :
    ∀ (fuel : Nat) (l : List Char), '<' ∉ l → stripTagsAux fuel l = l := by
  intro fuel
  induction fuel with
  | zero => intro l _; rfl
  | succ f ih =>
    intro l hl
    cases l with
    | nil => rfl
    | cons c rest =>
      have hc : c ≠ '<' := fun h => hl (h ▸ List.mem_cons_self c rest)
      simp only [stripTagsAux, if_neg hc]
      exact congrArg (c :: ·) (ih rest fun h => hl (List.mem_cons_of_mem c h))

theorem stripTags_id (l : List Char) (hl : '<' ∉ l) : stripTags l = l :=
  stripTagsAux_id l.length l hl

/-! ## Structure of `subTagBlocks` on an explicit block -/

theorem lazyTagMatch_length (o cp l r : List Char) (ho : o ≠ [])
    (h : lazyTagMatch o cp l = some r) : r.length < l.length := by
  unfold lazyTagMatch at h
  by_cases hp : o.isPrefixOf l
  · rw [if_pos hp] at h
    cases hidx : (l.drop o.length).findIdx? (fun c => c = '>') with
    | none => simp [hidx] at h
    | some j =>
      simp only [hidx] at h
      cases hfp : findPat cp ((l.drop o.length).drop (j + 1)) with
      | none =>
        simp only [hfp] at h
        exact Option.noConfusion h
      | some k =>
        simp only [hfp, Option.some.injEq] at h
        subst h
        have holen : o.length ≤ l.length :=
          (List.isPrefixOf_iff_prefix.mp hp).length_le
        have hone : 1 ≤ o.length := by
          cases o with
          | nil => exact absurd rfl ho
          | cons x xs => simp
        simp only [List.length_drop]
        omega
  · rw [if_neg hp] at h; simp at h

theorem subTagBlocksAux_congr (o cp : List Char) (ho : o ≠ []) :
    ∀ (f₁ f₂ : Nat) (l : List Char), l.length ≤ f₁ → l.length ≤ f₂ →
      subTagBlocksAux o cp f₁ l = subTagBlocksAux o cp f₂ l := by
  intro f₁
  induction f₁ with
  | zero =>
    intro f₂ l h1 _
    have hl : l = [] := List.length_eq_zero.mp (Nat.le_zero.mp h1)
    subst hl; cases f₂ <;> rfl
  | succ f ih =>
    intro f₂ l h1 h2
    cases l with
    | nil => cases f₂ <;> rfl
    | cons c rest =>
      cases f₂ with
      | zero => simp at h2
      | succ g =>
        have hr : rest.length ≤ f := by simpa using h1
        have hr2 : rest.length ≤ g := by simpa using h2
        simp only [subTagBlocksAux]
        cases hm : lazyTagMatch o cp (c :: rest) with
        | none => exact congrArg (c :: ·) (ih g rest hr hr2)
        | some rem =>
          have hlen : rem.length ≤ rest.length := by
            have := lazyTagMatch_length o cp (c :: rest) rem ho hm
            simpa [Nat.lt_succ_iff] using this
          exact congrArg (' ' :: ·)
            (ih g rem (le_trans hlen hr) (le_trans hlen hr2))

theorem subTagBlocks_cons_match (o cp : List Char) (ho : o ≠ []) (c : Char)
    (rest rem : List Char) (h : lazyTagMatch o cp (c :: rest) = some rem) :
    subTagBlocks o cp (c :: rest) = ' ' :: subTagBlocks o cp rem := by
  unfold subTagBlocks
  simp only [List.length_cons, subTagBlocksAux, h]
  have hlen : rem.length ≤ rest.length := by
    have := lazyTagMatch_length o cp (c :: rest) rem ho h
    simpa [Nat.lt_succ_iff] using this
  exact congrArg (' ' :: ·)
    (subTagBlocksAux_congr o cp ho rest.length rem.length rem hlen le_rfl)

theorem subTagBlocks_cons_nomatch (o cp : List Char) (c : Char)
    (rest : List Char) (h : lazyTagMatch o cp (c :: rest) = none) :
    subTagBlocks o cp (c :: rest) = c :: subTagBlocks o cp rest := by
  unfold subTagBlocks
  simp only [List.length_cons, subTagBlocksAux, h]

theorem findPat_cons (pat : List Char) (c : Char) (rest : List Char) :
    findPat pat (c :: rest) =
      if pat.isPrefixOf (c :: rest) = true then some 0
      else (findPat pat rest).map (· + 1) := rfl

theorem findPat_first (cl b rest : List Char) (hb : '<' ∉ b)
    (hpre : ('<' :: cl).isPrefixOf rest = true) :
    findPat ('<' :: cl) (b ++ rest) = some b.length := by
  induction b with
  | nil =>
    cases rest with
    | nil => simp [List.isPrefixOf] at hpre
    | cons r rs => simp [findPat, hpre]
  | cons x b' ih =>
    have hx : x ≠ '<' := fun h => hb (h ▸ List.mem_cons_self x b')
    have hpre2 : ('<' :: cl).isPrefixOf (x :: (b' ++ rest)) = false :=
      isPrefixOf_cons_false '<' x cl (b' ++ rest) hx
    rw [List.cons_append, findPat_cons, hpre2]
    simp only [Bool.false_eq_true, if_false]
    rw [ih fun h => hb (List.mem_cons_of_mem x h)]
    rfl

theorem lazyTagMatch_exact (o cl b c : List Char) (hb : '<' ∉ b) :
    lazyTagMatch o ('<' :: cl) (o ++ '>' :: (b ++ ('<' :: cl) ++ c)) = some c := by
  have hpre : o.isPrefixOf (o ++ '>' :: (b ++ ('<' :: cl) ++ c)) = true := by
    rw [List.isPrefixOf_iff_prefix]
    exact ⟨_, rfl⟩
  have hidx : ('>' :: (b ++ ('<' :: cl) ++ c)).findIdx? (fun ch => ch = '>') = some 0 := by
    simp [List.findIdx?_cons]
  have hfp : findPat ('<' :: cl) (b ++ ('<' :: cl) ++ c) = some b.length := by
    rw [List.append_assoc]
    exact findPat_first cl b (('<' :: cl) ++ c) hb
      (by rw [List.isPrefixOf_iff_prefix]; exact ⟨c, rfl⟩)
  unfold lazyTagMatch
  rw [if_pos hpre]
  simp only [List.drop_left, hidx, List.drop_succ_cons, List.drop_zero, hfp]
  rw [List.append_assoc, ← List.drop_drop, List.drop_left, List.drop_left]

theorem subTagBlocks_removes (nm cl a b c : List Char)
    (ha : '<' ∉ a) (hb : '<' ∉ b) :
    subTagBlocks ('<' :: nm) ('<' :: cl)
        (a ++ ('<' :: nm) ++ ('>' :: (b ++ ('<' :: cl) ++ c))) =
      a ++ ' ' :: subTagBlocks ('<' :: nm) ('<' :: cl) c := by
  induction a with
  | nil =>
    simp only [List.nil_append]
    have hm : lazyTagMatch ('<' :: nm) ('<' :: cl)
        (('<' :: nm) ++ ('>' :: (b ++ ('<' :: cl) ++ c))) = some c :=
      lazyTagMatch_exact ('<' :: nm) cl b c hb
    rw [List.cons_append] at hm ⊢
    rw [subTagBlocks_cons_match ('<' :: nm) ('<' :: cl) (by simp) '<'
      (nm ++ ('>' :: (b ++ ('<' :: cl) ++ c))) c hm]
  | cons x a' ih =>
    have hx : x ≠ '<' := fun h => ha (h ▸ List.mem_cons_self x a')
    have ha' : '<' ∉ a' := fun h => ha (List.mem_cons_of_mem x h)
    simp only [List.cons_append, List.append_assoc] at ih ⊢
    rw [subTagBlocks_cons_nomatch ('<' :: nm) ('<' :: cl) x _
      (lazyTagMatch_cons_ne nm ('<' :: cl) _ x hx)]
    rw [ih ha']

theorem accumStep_fst (acc : List Char × List Char) (p : Part) :
    (accumStep acc p).1 =
      acc.1 ++ (match plainPart? p with | some pl => pl | none => []) := by
  unfold accumStep plainPart?
  by_cases h1 : containsSub ("attachment".toList) p.contentDisposition
  · rw [if_pos h1, if_pos h1]
    simp
  · rw [if_neg h1, if_neg h1]
    by_cases h2 : p.contentType = "text/plain".toList
    · rw [if_pos h2, if_pos h2]
      cases hp : p.payload with
      | none => simp
      | some pl => by_cases h3 : pl = [] <;> simp [h3]
    · rw [if_neg h2, if_neg h2]
      by_cases h4 : p.contentType = "text/html".toList
      · rw [if_pos h4]
        cases hp : p.payload with
        | none => simp
        | some pl => by_cases h3 : pl = [] <;> simp [h3]
      · rw [if_neg h4]
        simp

theorem accum_foldl_fst (ps : List Part) :
    ∀ acc : List Char × List Char,
      (ps.foldl accumStep acc).1 = acc.1 ++ concatAll (ps.filterMap plainPart?) := by
  induction ps with
  | nil => intro acc; simp [concatAll]
  | cons p ps' ih =>
    intro acc
    simp only [List.foldl_cons]
    cases hpp : plainPart? p with
    | none =>
      rw [ih (accumStep acc p), accumStep_fst, hpp, List.filterMap_cons_none hpp]
      simp
    | some pl =>
      rw [ih (accumStep acc p), accumStep_fst, hpp, List.filterMap_cons_some hpp]
      simp [concatAll, List.append_assoc]

theorem concatAll_ne_nil (pl : List Char) (xs : List (List Char))
    (hm : pl ∈ xs) (hne : pl ≠ []) : concatAll xs ≠ [] := by
  induction xs with
  | nil => cases hm
  | cons x xs' ih =>
    simp only [concatAll]
    intro hc
    rcases List.append_eq_nil.mp hc with ⟨hx, hxs⟩
    rcases List.mem_cons.mp hm with h | h
    · exact hne (h.trans hx)
    · exact ih h hxs

theorem accumBuffers_multi_fst (ps : List Part) :
    (accumBuffers (.multi ps)).1 = concatAll (ps.filterMap plainPart?) := by
  have := accum_foldl_fst ps ([], [])
  simpa [accumBuffers] using this

theorem getEmailContent_of_plain (msg : EmailMessage) (pto : Bool)
    (h : (accumBuffers msg).1 ≠ []) :
    getEmailContent msg pto = normalizeWs (accumBuffers msg).1 := by
  unfold getEmailContent
  rw [if_neg h]

/-! ## Normalization facts about the extraction results -/

theorem wsNormalized_nil : WsNormalized [] := ⟨List.chain'_nil, rfl, rfl⟩

theorem wsNormalized_getEmailContent (msg : EmailMessage) (pto : Bool) :
    WsNormalized (getEmailContent msg pto) := by
  unfold getEmailContent
  exact wsNormalized_normalizeWs _

theorem htmlToText_eq_normalizeWs (l : List Char) :
    htmlToText l = normalizeWs (collapseRuns (fun c => c = '\n') '\n'
      (stripTags (subNumericEntities (applyEntities (subBlockTags
        (removeStyles (removeScripts l))))))) := rfl

theorem wsNormalized_htmlToText (l : List Char) : WsNormalized (htmlToText l) := by
  rw [htmlToText_eq_normalizeWs]
  exact wsNormalized_normalizeWs _

/-! ## `htmlToText` on input free of `<` and `&` -/

theorem removeScripts_id (l : List Char) (hl : '<' ∉ l) : removeScripts l = l := by
  unfold removeScripts
  rw [show ("<script".toList) = '<' :: ("script".toList) from rfl]
  exact subTagBlocks_id _ _ l hl

theorem removeStyles_id (l : List Char) (hl : '<' ∉ l) : removeStyles l = l := by
  unfold removeStyles
  rw [show ("<style".toList) = '<' :: ("style".toList) from rfl]
  exact subTagBlocks_id _ _ l hl

theorem htmlToText_plain (s : List Char) (h1 : '<' ∉ s) (h2 : '&' ∉ s) :
    htmlToText s = normalizeWs (collapseRuns (fun c => c = '\n') '\n' s) := by
  rw [htmlToText_eq_normalizeWs, removeScripts_id s h1, removeStyles_id s h1,
    subBlockTags_id s h1, applyEntities_id s h2, subNumericEntities_id s h2,
    stripTags_id s h1]

theorem mem_normalizeWs (c : Char) (l : List Char) (h : c ∈ normalizeWs l) :
    c ∈ l ∨ c = ' ' := by
  unfold normalizeWs at h
  exact mem_collapseRuns pySpace ' ' l c (mem_stripWs c _ h)

theorem normalizeWs_space_eq (c : Char) (l : List Char) (h : c ∈ normalizeWs l)
    (hc : pySpace c = true) : c = ' ' := by
  unfold normalizeWs at h
  exact collapseRuns_p_eq_rep pySpace ' ' l c (mem_stripWs c _ h) hc

theorem stripWs_id (l : List Char) (h1 : headNotWs l = true)
    (h2 : headNotWs l.reverse = true) : stripWs l = l := by
  unfold stripWs
  have hd1 : l.dropWhile pySpace = l := by
    cases l with
    | nil => rfl
    | cons c rest =>
      simp only [headNotWs, Bool.not_eq_true'] at h1
      rw [List.dropWhile_cons, if_neg (by simp [h1])]
  rw [hd1]
  have hd2 : l.reverse.dropWhile pySpace = l.reverse := by
    cases hr : l.reverse with
    | nil => rfl
    | cons c rest =>
      rw [hr] at h2
      simp only [headNotWs, Bool.not_eq_true'] at h2
      rw [List.dropWhile_cons, if_neg (by simp [h2])]
  rw [hd2, List.reverse_reverse]

/-! ## Fetch-layer helper lemmas -/

theorem fetchEmails_select_failed (srv : ImapServer) (limit : Option Int)
    (pto : Bool) (excl : List (List Char)) (h : srv.selectOk = false) :
    fetchEmails srv limit pto excl = [] := by
  unfold fetchEmails
  rw [if_pos h]

theorem fetchEmails_search_failed (srv : ImapServer) (limit : Option Int)
    (pto : Bool) (excl : List (List Char)) (h : srv.searchOk = false) :
    fetchEmails srv limit pto excl = [] := by
  unfold fetchEmails
  by_cases hsel : srv.selectOk = false
  · rw [if_pos hsel]
  · rw [if_neg hsel, if_pos h]

theorem mem_fetchEmails (srv : ImapServer) (limit : Option Int) (pto : Bool)
    (excl : List (List Char)) (r : EmailRecord)
    (hsel : srv.selectOk = true) (hsearch : srv.searchOk = true) :
    r ∈ fetchEmails srv limit pto excl ↔
      ∃ mid, mid ∈ applyLimit limit srv.messageIds ∧
        fetchOne srv pto excl mid = some r := by
  unfold fetchEmails
  rw [if_neg (by simp [hsel]), if_neg (by simp [hsearch])]
  exact List.mem_filterMap

theorem fetchOne_id (srv : ImapServer) (pto : Bool) (excl : List (List Char))
    (mid : List Char) (r : EmailRecord)
    (h : fetchOne srv pto excl mid = some r) : r.id = mid := by
  unfold fetchOne at h
  cases hm : srv.fetchMsg mid with
  | none => simp only [hm] at h; exact Option.noConfusion h
  | some m =>
    simp only [hm] at h
    by_cases he : shouldExclude excl m.fromAddr
    · rw [if_pos he] at h; exact Option.noConfusion h
    · rw [if_neg he] at h
      simp only [Option.some.injEq] at h
      subst h
      rfl

theorem fetchOne_excluded (srv : ImapServer) (pto : Bool)
    (excl : List (List Char)) (mid : List Char) (m : FetchedMsg)
    (hfetch : srv.fetchMsg mid = some m)
    (hexc : shouldExclude excl m.fromAddr = true) :
    fetchOne srv pto excl mid = none := by
  unfold fetchOne
  simp only [hfetch]
  rw [if_pos hexc]

theorem fetchOne_kept (srv : ImapServer) (pto : Bool)
    (excl : List (List Char)) (mid : List Char) (m : FetchedMsg)
    (hfetch : srv.fetchMsg mid = some m)
    (hexc : shouldExclude excl m.fromAddr = false) :
    fetchOne srv pto excl mid =
      some { id := mid, subject := m.subject, fromAddr := m.fromAddr,
             date := m.date, content := extractContent m.body pto } := by
  unfold fetchOne
  simp only [hfetch]
  rw [if_neg (by simp [hexc])]

theorem filterMap_fetchOne_ids (srv : ImapServer) (pto : Bool)
    (excl : List (List Char)) :
    ∀ ids : List (List Char),
      (∀ mid ∈ ids, ∃ m, srv.fetchMsg mid = some m ∧
        shouldExclude excl m.fromAddr = false) →
      (ids.filterMap (fetchOne srv pto excl)).map EmailRecord.id = ids := by
  intro ids
  induction ids with
  | nil => intro _; rfl
  | cons mid ids' ih =>
    intro h
    rcases h mid (List.mem_cons_self mid ids') with ⟨m, hm, hex⟩
    rw [List.filterMap_cons_some (fetchOne_kept srv pto excl mid m hm hex)]
    simp only [List.map_cons]
    rw [ih fun x hx => h x (List.mem_cons_of_mem mid hx)]

theorem extractContent_cases (msg : EmailMessage) (pto : Bool) :
    extractContent msg pto = getEmailContent msg pto ∨
      (getEmailContent msg pto = [] ∧
        extractContent msg pto = fallbackContent msg) := by
  unfold extractContent
  by_cases h : getEmailContent msg pto = []
  · right
    exact ⟨h, by rw [if_pos h]⟩
  · left
    rw [if_neg h]

theorem fallbackContent_cases (msg : EmailMessage) :
    fallbackContent msg = [] ∨
      fallbackContent msg = htmlToText (spaceJoin (payloadStrings msg)) ∨
      (fallbackContent msg = spaceJoin (payloadStrings msg) ∧
        ¬('<' ∈ spaceJoin (payloadStrings msg) ∧
          '>' ∈ spaceJoin (payloadStrings msg))) := by
  unfold fallbackContent
  cases hps : payloadStrings msg with
  | nil => left; rfl
  | cons x xs =>
    by_cases h : '<' ∈ spaceJoin (x :: xs) ∧ '>' ∈ spaceJoin (x :: xs)
    · right; left
      simp only [if_pos h]
    · right; right
      refine ⟨?_, h⟩
      simp only [if_neg h]

theorem applyLimit_none (ids : List (List Char)) : applyLimit none ids = ids := rfl

theorem applyLimit_nonpos (k : Int) (ids : List (List Char)) (hk : k ≤ 0) :
    applyLimit (some k) ids = ids := by
  simp only [applyLimit]
  rw [if_neg]
  rintro ⟨h1, h2⟩
  omega

theorem applyLimit_pos (k : Int) (ids : List (List Char)) (hk : 0 < k) :
    applyLimit (some k) ids = ids.drop (ids.length - k.toNat) := by
  simp only [applyLimit]
  rw [if_pos ⟨by omega, hk⟩]

/-! ## Character inventory of `htmlToText` on plain input -/

theorem htmlToText_chars (s : List Char) (h1 : '<' ∉ s) (h2 : '&' ∉ s) :
    '<' ∉ htmlToText s ∧ '&' ∉ htmlToText s ∧
      (∀ c ∈ htmlToText s, c ≠ '\n') ∧
      (∀ c ∈ htmlToText s, pySpace c = true → c = ' ') := by
  rw [htmlToText_plain s h1 h2]
  have hmem : ∀ c ∈ collapseRuns (fun c => c = '\n') '\n' s, c ∈ s ∨ c = '\n' :=
    mem_collapseRuns _ _ s
  refine ⟨?_, ?_, ?_, ?_⟩
  · intro hc
    rcases mem_normalizeWs '<' _ hc with h | h
    · rcases hmem '<' h with h | h
      · exact h1 h
      · exact absurd h (by decide)
    · exact absurd h (by decide)
  · intro hc
    rcases mem_normalizeWs '&' _ hc with h | h
    · rcases hmem '&' h with h | h
      · exact h2 h
      · exact absurd h (by decide)
    · exact absurd h (by decide)
  · intro c hc heq
    subst heq
    have := normalizeWs_space_eq '\n' _ hc (by decide)
    exact absurd this (by decide)
  · intro c hc hsp
    exact normalizeWs_space_eq c _ hc hsp

/-! ## Claim analyses -/

/-- C1: the claim says that with `plainTextOnly = true` the extractor
collects no HTML; in the source the parameter is never read, contradicting
the function's own docstring.  The first conjunct shows the flag has no
effect at all; the second evaluates the extractor at the failing input: a
message with a single HTML body part yields converted HTML text under
`plainTextOnly = true` instead of the empty string. -/
theorem c1_plain_flag_ignored :
    (∀ (msg : EmailMessage) (b : Bool),
      getEmailContent msg b = getEmailContent msg false) ∧
    getEmailContent msgHtmlOnly true = "Hello".toList :=
  ⟨fun _ _ => rfl, by decide⟩

/-- C2 counterexample: one emitted record whose content, produced by the
deep fallback on non-HTML payloads, has a run of three whitespace
characters, refuting the invariant that every emitted content is
whitespace-normalized. -/
theorem c2_counterexample :
    (fetchEmails srvC2 none false []).map EmailRecord.content =
        ["a\n  b".toList] ∧
      ¬WsNormalized ("a\n  b".toList) := by
  refine ⟨by decide, ?_⟩
  rintro ⟨hA, -, -⟩
  rw [show ("a\n  b".toList) = 'a' :: '\n' :: ' ' :: ' ' :: 'b' :: [] from rfl] at hA
  have t1 := (List.chain'_cons.mp hA).2
  have t2 := (List.chain'_cons.mp t1).2
  have t3 := (List.chain'_cons.mp t2).1
  rcases t3 with h | h <;> exact absurd h (by decide)

/-- C2 (amended): content coming from the primary extractor, or from the
fallback when the joined payloads look like HTML, is whitespace-normalized;
otherwise the content is exactly the payloads joined by single spaces,
without normalization. -/
theorem c2_amended (srv : ImapServer) (limit : Option Int) (pto : Bool)
    (excl : List (List Char)) (r : EmailRecord)
    (hr : r ∈ fetchEmails srv limit pto excl) :
    WsNormalized r.content ∨
      ∃ m : FetchedMsg, srv.fetchMsg r.id = some m ∧
        r.content = spaceJoin (payloadStrings m.body) ∧
        ¬('<' ∈ r.content ∧ '>' ∈ r.content) := by
  cases hsel : srv.selectOk with
  | false =>
    rw [fetchEmails_select_failed srv limit pto excl hsel] at hr
    exact absurd hr (List.not_mem_nil r)
  | true =>
    cases hsearch : srv.searchOk with
    | false =>
      rw [fetchEmails_search_failed srv limit pto excl hsearch] at hr
      exact absurd hr (List.not_mem_nil r)
    | true =>
      rw [mem_fetchEmails srv limit pto excl r hsel hsearch] at hr
      obtain ⟨mid, _, hone⟩ := hr
      unfold fetchOne at hone
      cases hm : srv.fetchMsg mid with
      | none => simp only [hm] at hone; exact Option.noConfusion hone
      | some m =>
        simp only [hm] at hone
        by_cases hex : shouldExclude excl m.fromAddr
        · rw [if_pos hex] at hone; exact Option.noConfusion hone
        · rw [if_neg hex] at hone
          simp only [Option.some.injEq] at hone
          subst hone
          rcases extractContent_cases m.body pto with hc | ⟨_, hc⟩
          · left
            show WsNormalized (extractContent m.body pto)
            rw [hc]
            exact wsNormalized_getEmailContent m.body pto
          · rcases fallbackContent_cases m.body with hf | hf | ⟨hf, hlt⟩
            · left
              show WsNormalized (extractContent m.body pto)
              rw [hc, hf]
              exact wsNormalized_nil
            · left
              show WsNormalized (extractContent m.body pto)
              rw [hc, hf]
              exact wsNormalized_htmlToText _
            · right
              refine ⟨m, hm, ?_, ?_⟩
              · show extractContent m.body pto = _
                rw [hc, hf]
              · show ¬('<' ∈ extractContent m.body pto ∧
                  '>' ∈ extractContent m.body pto)
                rw [hc, hf]
                exact hlt

theorem c2_amended_witness :
    WsNormalized recC2.content ∨
      ∃ m : FetchedMsg, srvC2.fetchMsg recC2.id = some m ∧
        recC2.content = spaceJoin (payloadStrings m.body) ∧
        ¬('<' ∈ recC2.content ∧ '>' ∈ recC2.content) :=
  c2_amended srvC2 none false [] recC2 (by decide)

/-- C3 counterexample: with `SELECT INBOX` rejected and three messages
listed, the fetch completes normally with the empty result sequence; no
error of any kind is raised, refuting the claim that the run fails with a
MailboxError. -/
theorem c3_counterexample :
    fetchEmails srvC3 (some 10) false [] = [] ∧
      srvC3.selectOk = false ∧ srvC3.messageIds.length = 3 :=
  ⟨rfl, rfl, rfl⟩

/-- C3 (amended): when the server rejects inbox selection, the fetch logs
the error on the console and completes normally with the empty sequence
(indistinguishable from an empty mailbox); no MailboxError exists. -/
theorem c3_amended (srv : ImapServer) (limit : Option Int) (pto : Bool)
    (excl : List (List Char)) (h : srv.selectOk = false) :
    fetchEmails srv limit pto excl = [] :=
  fetchEmails_select_failed srv limit pto excl h

theorem c3_amended_witness : fetchEmails srvC3 none false [] = [] :=
  c3_amended srvC3 none false [] rfl

/-- C4: a fetched and parsed message whose decoded sender contains an
exclusion substring case-insensitively yields no record; a message whose
sender matches no exclusion substring yields a record with its id. -/
theorem c4_exclusion (srv : ImapServer) (limit : Option Int) (pto : Bool)
    (excl : List (List Char)) (mid : List Char) (m : FetchedMsg)
    (hsel : srv.selectOk = true) (hsearch : srv.searchOk = true)
    (hmem : mid ∈ applyLimit limit srv.messageIds)
    (hfetch : srv.fetchMsg mid = some m) :
    ((∃ s ∈ excl, containsSub (toLowerStr s) (toLowerStr m.fromAddr) = true) →
      ∀ r ∈ fetchEmails srv limit pto excl, r.id ≠ mid) ∧
    ((∀ s ∈ excl, containsSub (toLowerStr s) (toLowerStr m.fromAddr) = false) →
      ∃ r ∈ fetchEmails srv limit pto excl, r.id = mid) := by
  constructor
  · rintro ⟨s, hs, hcontains⟩ r hr hid
    rw [mem_fetchEmails srv limit pto excl r hsel hsearch] at hr
    obtain ⟨mid2, _, hone⟩ := hr
    have hid2 : r.id = mid2 := fetchOne_id srv pto excl mid2 r hone
    have hmid : mid2 = mid := hid2.symm.trans hid
    subst hmid
    have hexc : shouldExclude excl m.fromAddr = true :=
      List.any_eq_true.mpr ⟨s, hs, hcontains⟩
    rw [fetchOne_excluded srv pto excl mid2 m hfetch hexc] at hone
    exact Option.noConfusion hone
  · intro hnone
    have hexc : shouldExclude excl m.fromAddr = false := by
      by_cases h : shouldExclude excl m.fromAddr
      · rcases List.any_eq_true.mp h with ⟨s, hs, hcontains⟩
        rw [hnone s hs] at hcontains
        exact absurd hcontains (by simp)
      · simpa using h
    refine ⟨{ id := mid, subject := m.subject, fromAddr := m.fromAddr,
              date := m.date, content := extractContent m.body pto }, ?_, rfl⟩
    rw [mem_fetchEmails srv limit pto excl _ hsel hsearch]
    exact ⟨mid, hmem, fetchOne_kept srv pto excl mid m hfetch hexc⟩

theorem c4_witness : recAlice.id ≠ ['1'] :=
  (c4_exclusion srvC4 none false ["newsletter".toList] ['1'] msgNews rfl rfl
      (by decide) (by decide)).1
    ⟨"newsletter".toList, by decide, by decide⟩ recAlice (by decide)

/-- C5: a message with at least one non-empty, non-attachment text/plain
body part has its content taken from the concatenated plain-text buffer
(whitespace-normalized), independently of any HTML parts; in particular the
plain buffer is non-empty, so the HTML buffer is never consulted. -/
theorem c5_plain_precedence (msg : EmailMessage) (pto : Bool)
    (h : ∃ p ∈ walkParts msg,
      containsSub ("attachment".toList) p.contentDisposition = false ∧
      p.contentType = "text/plain".toList ∧
      ∃ pl, p.payload = some pl ∧ pl ≠ []) :
    getEmailContent msg pto = normalizeWs (accumBuffers msg).1 ∧
      (accumBuffers msg).1 ≠ [] := by
  have hne : (accumBuffers msg).1 ≠ [] := by
    obtain ⟨p, hpmem, hdisp, hct, pl, hpl, hplne⟩ := h
    cases msg with
    | multi ps =>
      rw [accumBuffers_multi_fst]
      have hq : plainPart? p = some pl := by
        unfold plainPart?
        rw [if_neg (show
          ¬(containsSub ("attachment".toList) p.contentDisposition = true) from
            fun hcontra => by
              rw [hdisp] at hcontra
              exact Bool.noConfusion hcontra), if_pos hct]
        simp only [hpl]
        rw [if_neg hplne]
      exact concatAll_ne_nil pl _ (List.mem_filterMap.mpr ⟨p, hpmem, hq⟩) hplne
    | single p0 =>
      simp only [walkParts, List.mem_singleton] at hpmem
      subst hpmem
      simp only [accumBuffers, hpl]
      rw [if_neg hplne, if_pos hct]
      simpa using hplne
  exact ⟨getEmailContent_of_plain msg pto hne, hne⟩

theorem c5_witness :
    getEmailContent msgC5 true = normalizeWs (accumBuffers msgC5).1 ∧
      (accumBuffers msgC5).1 ≠ [] :=
  c5_plain_precedence msgC5 true
    ⟨⟨"text/plain".toList, "None".toList, some ("Hi  there".toList)⟩,
      by decide, by decide, by decide, "Hi  there".toList, rfl, by decide⟩

/-- C6: when select and search succeed, every fetch succeeds and nothing is
excluded, the processed identifiers are exactly `applyLimit limit ids`; a
positive limit `k` with `k ≤ n` keeps precisely the `k` last-listed
identifiers as a suffix (hence in their original relative order), while an
absent, zero, or negative limit keeps all of them. -/
theorem c6_limit (srv : ImapServer) (limit : Option Int) (pto : Bool)
    (excl : List (List Char))
    (hsel : srv.selectOk = true) (hsearch : srv.searchOk = true)
    (hok : ∀ mid ∈ applyLimit limit srv.messageIds,
      ∃ m, srv.fetchMsg mid = some m ∧ shouldExclude excl m.fromAddr = false) :
    (fetchEmails srv limit pto excl).map EmailRecord.id =
        applyLimit limit srv.messageIds ∧
    (∀ k : Int, limit = some k → 0 < k → k.toNat ≤ srv.messageIds.length →
      applyLimit limit srv.messageIds =
          srv.messageIds.drop (srv.messageIds.length - k.toNat) ∧
        (applyLimit limit srv.messageIds).length = k.toNat ∧
        applyLimit limit srv.messageIds <:+ srv.messageIds) ∧
    ((limit = none ∨ limit = some 0 ∨ ∃ k : Int, limit = some k ∧ k < 0) →
      applyLimit limit srv.messageIds = srv.messageIds) := by
  refine ⟨?_, ?_, ?_⟩
  · unfold fetchEmails
    rw [if_neg (by simp [hsel]), if_neg (by simp [hsearch])]
    exact filterMap_fetchOne_ids srv pto excl (applyLimit limit srv.messageIds) hok
  · rintro k rfl hk hkn
    rw [applyLimit_pos k srv.messageIds hk]
    refine ⟨rfl, ?_, List.drop_suffix _ _⟩
    rw [List.length_drop]
    omega
  · rintro (rfl | rfl | ⟨k, rfl, hk⟩)
    · rfl
    · exact applyLimit_nonpos 0 srv.messageIds le_rfl
    · exact applyLimit_nonpos k srv.messageIds (le_of_lt hk)

theorem c6_witness :
    (fetchEmails srvC6 (some 2) false []).map EmailRecord.id = [['2'], ['3']] := by
  have h := c6_limit srvC6 (some 2) false [] rfl rfl
    (fun mid _ => ⟨msgC6, rfl, rfl⟩)
  rw [h.1]
  decide

/-- C7 counterexample: the script/style removal is case-sensitive (the
source passes only DOTALL).  A lowercase script block is removed with its
inner content, but the uppercase variant survives step 1; its tags are only
stripped later, so the inner content remains in the output — refuting the
claimed case-insensitive removal. -/
theorem c7_counterexample :
    htmlToText ("<script>secret</script>".toList) = [] ∧
      htmlToText ("<SCRIPT>secret</SCRIPT>".toList) = "secret".toList := by
  constructor
  · decide
  · decide

/-- C7 (amended): toText removes lowercase script and style blocks
entirely, including their inner content (spanning newlines, since the
scanners treat every character uniformly), and this removal is the first
transformation step; the matching is case-sensitive, not case-insensitive. -/
theorem c7_amended (a b c : List Char) (ha : '<' ∉ a) (hb : '<' ∉ b) :
    removeScripts (a ++ "<script>".toList ++ b ++ "</script>".toList ++ c) =
        a ++ ' ' :: removeScripts c ∧
    removeStyles (a ++ "<style>".toList ++ b ++ "</style>".toList ++ c) =
        a ++ ' ' :: removeStyles c ∧
    ∀ s : List Char, htmlToText s = htmlToTextRest (removeStyles (removeScripts s)) := by
  refine ⟨?_, ?_, fun s => rfl⟩
  · unfold removeScripts
    have key := subTagBlocks_removes ("script".toList) ("/script>".toList) a b c ha hb
    rw [show ('<' :: ("script".toList) : List Char) = "<script".toList from rfl,
      show ('<' :: ("/script>".toList) : List Char) = "</script>".toList from rfl] at key
    rw [show ("<script>".toList : List Char) = "<script".toList ++ ['>'] from rfl]
    simp only [List.append_assoc, List.cons_append, List.nil_append] at key ⊢
    exact key
  · unfold removeStyles
    have key := subTagBlocks_removes ("style".toList) ("/style>".toList) a b c ha hb
    rw [show ('<' :: ("style".toList) : List Char) = "<style".toList from rfl,
      show ('<' :: ("/style>".toList) : List Char) = "</style>".toList from rfl] at key
    rw [show ("<style>".toList : List Char) = "<style".toList ++ ['>'] from rfl]
    simp only [List.append_assoc, List.cons_append, List.nil_append] at key ⊢
    exact key

theorem c7_amended_witness :
    removeScripts ("x".toList ++ "<script>".toList ++ "y".toList ++
        "</script>".toList ++ "z".toList) =
      "x".toList ++ ' ' :: removeScripts ("z".toList) :=
  (c7_amended ("x".toList) ("y".toList) ("z".toList) (by decide) (by decide)).1

attribute [irreducible] htmlToText

/-- C8: toText is idempotent on input free of angle brackets and
ampersands: every tag- and entity-stage fixes such input, and the final
collapse-and-trim stages are idempotent. -/
theorem c8_toText_idempotent (s : List Char) (h1 : '<' ∉ s) (h2 : '&' ∉ s) :
    htmlToText (htmlToText s) = htmlToText s := by
  obtain ⟨g1, g2, g3, g4⟩ := htmlToText_chars s h1 h2
  rw [htmlToText_plain (htmlToText s) g1 g2]
  have hnl : collapseRuns (fun c => c = '\n') '\n' (htmlToText s) = htmlToText s :=
    collapseRuns_id_of_no_p _ '\n' (htmlToText s)
      (fun c hc => by simp [g3 c hc])
  rw [hnl]
  obtain ⟨hA, hB, hC⟩ := wsNormalized_htmlToText s
  unfold normalizeWs
  rw [collapseRuns_id_isolated (htmlToText s) hA g4, stripWs_id _ hB hC]

theorem c8_witness :
    htmlToText (htmlToText ("a  b".toList)) = htmlToText ("a  b".toList) :=
  c8_toText_idempotent ("a  b".toList) (by decide) (by decide)

/-- C9: disconnect never raises: without a handle it is a no-op, and with a
handle any failure of close or logout is swallowed, so the call always
returns normally. -/
theorem c9_disconnect_total (imap : Option ImapHandle) :
    disconnect imap = Except.ok () := by
  cases imap with
  | none => rfl
  | some h =>
    rcases h with ⟨cf, lf⟩
    cases cf <;> cases lf <;> rfl

/-- C10: provider resolution is case-insensitive over the five supported
names — any spelling whose lowercase form is one of them yields the same
host/port as the lowercase name — and every other name yields the
unsupported-provider error. -/
theorem c10_provider_resolution (provider username password : List Char) :
    (toLowerStr provider = "gmail".toList →
      createConnector provider username password =
        .ok ⟨username, password, "imap.gmail.com".toList, 993⟩) ∧
    (toLowerStr provider = "outlook".toList →
      createConnector provider username password =
        .ok ⟨username, password, "outlook.office365.com".toList, 993⟩) ∧
    (toLowerStr provider = "yahoo".toList →
      createConnector provider username password =
        .ok ⟨username, password, "imap.mail.yahoo.com".toList, 993⟩) ∧
    (toLowerStr provider = "aol".toList →
      createConnector provider username password =
        .ok ⟨username, password, "imap.aol.com".toList, 993⟩) ∧
    (toLowerStr provider = "zoho".toList →
      createConnector provider username password =
        .ok ⟨username, password, "imap.zoho.com".toList, 993⟩) ∧
    (toLowerStr provider ∉ ["gmail".toList, "outlook".toList, "yahoo".toList,
        "aol".toList, "zoho".toList] →
      createConnector provider username password =
        .error ("Unsupported email provider: ".toList ++ toLowerStr provider)) := by
  unfold createConnector
  refine ⟨?_, ?_, ?_, ?_, ?_, ?_⟩
  · intro h
    rw [if_pos h]
  · intro h
    rw [if_neg (by rw [h]; decide), if_pos h]
  · intro h
    rw [if_neg (by rw [h]; decide), if_neg (by rw [h]; decide), if_pos h]
  · intro h
    rw [if_neg (by rw [h]; decide), if_neg (by rw [h]; decide),
      if_neg (by rw [h]; decide), if_pos h]
  · intro h
    rw [if_neg (by rw [h]; decide), if_neg (by rw [h]; decide),
      if_neg (by rw [h]; decide), if_neg (by rw [h]; decide), if_pos h]
  · intro h
    simp only [List.mem_cons, List.mem_singleton, not_or] at h
    obtain ⟨n1, n2, n3, n4, n5, -⟩ := h
    rw [if_neg n1, if_neg n2, if_neg n3, if_neg n4, if_neg n5]

theorem c10_witness :
    createConnector ("GMaIL".toList) ("u".toList) ("p".toList) =
        .ok ⟨"u".toList, "p".toList, "imap.gmail.com".toList, 993⟩ ∧
      createConnector ("fastmail".toList) ("u".toList) ("p".toList) =
        .error ("Unsupported email provider: ".toList ++
          toLowerStr ("fastmail".toList)) :=
  ⟨(c10_provider_resolution ("GMaIL".toList) ("u".toList) ("p".toList)).1
      (by decide),
   (c10_provider_resolution ("fastmail".toList) ("u".toList) ("p".toList)).2.2.2.2.2
      (by decide)⟩

end MailHarvest
